import Mathlib

/-!
Verification of the agenda event-range navigation logic of
`src/js/agenda-bundle.js` (functions `buildEventRanges`, `getEventBounds`,
`hasEventsInRange`, `findNextEventDate`, `findPrevEventDate`, and the
`datesSet` view-change handler of `renderAgenda`).

Modelling conventions (shallow embedding):
* Luxon `DateTime` values are modelled as epoch milliseconds (`Int`); Luxon
  compares `DateTime`s by their millisecond value, so `<`, `≤` on `Int` are
  faithful.  The display zone is `America/Bogota`, a fixed-offset zone with
  no daylight-saving transitions, so Luxon's calendar arithmetic
  `plus {days: 1}` and `plus {minutes: 1}` always add a constant
  86400000 ms and 60000 ms respectively.
* Zoned ISO-8601 parsing (`luxon.DateTime.fromISO(s, {zone})`) is an external
  capability; it is abstracted as a function `parse : String → Option Int`
  (`none` models an invalid `DateTime`).  Theorems quantify over `parse`.
* A JavaScript raw event object is `Option RawEvent` (`none` models a falsy
  array entry); its `start`/`end` fields are `Option String` (`none` models a
  missing or falsy field).  A non-array `events` argument is `none` at the
  list level.
* The `datesSet` closure mutates the variables `lastViewStart`,
  `lastViewType`, `isAutoNavigating`; it is modelled as a pure transition
  function on a `NavState` record, returning the new state together with the
  millisecond value passed to the external `gotoDate` capability (`none` when
  no jump is invoked).
-/

/-- Derived event range: `{start, end}` in epoch milliseconds, as produced by
`buildEventRanges` in `agenda-bundle.js`. -/
structure EventRange where
  start : Int
  stop : Int
  deriving DecidableEq, Repr

/-- Raw calendar event as consumed by `buildEventRanges`: the `start` and
`end` fields are ISO strings (`none` models a missing/falsy field), `allDay`
is the optional boolean flag (JS falsy default `false`). -/
structure RawEvent where
  start : Option String
  stop : Option String
  allDay : Bool
  deriving DecidableEq, Repr

/-- Milliseconds added by Luxon `plus {days: 1}` in the fixed-offset zone
`America/Bogota`. -/
def msPerDay : Int := 86400000

/-- Milliseconds added by Luxon `plus {minutes: 1}`. -/
def msPerMinute : Int := 60000

/-- Embeds the defaulting of the `end` field in `buildEventRanges`:
`let end = event.end ? DateTime.fromISO(event.end, {zone}) : null;
if (!end || !end.isValid) end = start;`. -/
def defaultedEnd (parse : String → Option Int) (e : RawEvent) (start : Int) : Int :=
  match e.stop with
  | none => start
  | some es =>
    match parse es with
    | none => start
    | some x => x

/-- Embeds the mutation of the local `end` variable in the `.map` callback of
`buildEventRanges` (`agenda-bundle.js` lines 211-220): the all-day / timed
degenerate-range expansion and the date-only inclusive-end extension. -/
def derivedStop (parse : String → Option Int) (e : RawEvent) (start : Int) : Int :=
  let endMs := defaultedEnd parse e start
  if e.allDay then
    if endMs ≤ start then start + msPerDay
    else
      match e.stop with
      | some es => if es.length = 10 then endMs + msPerDay else endMs
      | none => endMs
  else
    if endMs ≤ start then start + msPerMinute
    else endMs

/-- Embeds the body of the `.map` callback of `buildEventRanges`
(`agenda-bundle.js` lines 201-223): rejects a falsy entry, a missing `start`
field, or an unparseable `start`; then returns `{start, end}` with the
defaulted and expanded `end`. -/
def buildEventRange (parse : String → Option Int) (ev : Option RawEvent) :
    Option EventRange :=
  match ev with
  | none => none
  | some e =>
    match e.start with
    | none => none
    | some s =>
      match parse s with
      | none => none
      | some start => some ⟨start, derivedStop parse e start⟩

/-- Embeds `buildEventRanges(events, zone)`: `none` at the outer level models
a non-array `events` argument (`!Array.isArray(events)` returns `[]`);
otherwise map each entry and drop the `null` results (`.filter(Boolean)`). -/
def buildEventRanges (parse : String → Option Int)
    (events : Option (List (Option RawEvent))) : List EventRange :=
  match events with
  | none => []
  | some evs => evs.filterMap (buildEventRange parse)

/-- Aggregate bounds returned by `getEventBounds`. -/
structure Bounds where
  start : Int
  stop : Int
  deriving DecidableEq, Repr

/-- Embeds the body of the `forEach` callback of `getEventBounds`
(`agenda-bundle.js` lines 231-234): update the running minimum start and
maximum end. -/
def boundsStep (acc : Bounds) (range : EventRange) : Bounds :=
  { start := if range.start < acc.start then range.start else acc.start
    stop := if acc.stop < range.stop then range.stop else acc.stop }

/-- Embeds `getEventBounds(ranges)` (`agenda-bundle.js` lines 227-236):
`null` for a falsy or empty argument, otherwise a `forEach` fold over all
ranges taking the minimum start and maximum end, seeded with `ranges[0]`. -/
def getEventBounds (ranges : Option (List EventRange)) : Option Bounds :=
  match ranges with
  | none => none
  | some [] => none
  | some (r :: rs) =>
    some ((r :: rs).foldl boundsStep { start := r.start, stop := r.stop })

/-- Embeds `hasEventsInRange(ranges, rangeStart, rangeEnd)`
(`agenda-bundle.js` lines 238-240):
`ranges.some(range => range.start < rangeEnd && range.end > rangeStart)`. -/
def hasEventsInRange (ranges : List EventRange) (rangeStart rangeEnd : Int) : Bool :=
  ranges.any fun range => decide (range.start < rangeEnd) && decide (range.stop > rangeStart)

/-- Embeds `findNextEventDate(ranges, afterDate)` (`agenda-bundle.js` lines
242-247): forward scan, return the first `range.start >= afterDate`. -/
def findNextEventDate (ranges : List EventRange) (afterDate : Int) : Option Int :=
  match ranges with
  | [] => none
  | r :: rs => if r.start ≥ afterDate then some r.start else findNextEventDate rs afterDate

/-- Descending-index scan of `findPrevEventDate`, expressed as a forward scan
of the reversed list. -/
def findPrevAux (ranges : List EventRange) (beforeDate : Int) : Option Int :=
  match ranges with
  | [] => none
  | r :: rs => if r.start < beforeDate then some r.start else findPrevAux rs beforeDate

/-- Embeds `findPrevEventDate(ranges, beforeDate)` (`agenda-bundle.js` lines
249-254): scan from the last index down, return the first
`ranges[i].start < beforeDate`. -/
def findPrevEventDate (ranges : List EventRange) (beforeDate : Int) : Option Int :=
  findPrevAux ranges.reverse beforeDate

/-- Navigation state closed over by the `datesSet` handler of `renderAgenda`
(`agenda-bundle.js` lines 304-306): `lastViewStart` (zoned timestamp or
`null`), `lastViewType` (view-kind string or `null`), `isAutoNavigating`. -/
structure NavState where
  lastViewStart : Option Int
  lastViewType : Option String
  isAutoNavigating : Bool
  deriving DecidableEq, Repr

/-- View-change signal payload: `info.view.type`, `info.view.currentStart`,
`info.view.currentEnd` (the two dates converted to zoned timestamps). -/
structure ViewInfo where
  viewType : String
  currentStart : Int
  currentEnd : Int
  deriving DecidableEq, Repr

/-- Embeds the view-kind bookkeeping at the top of `datesSet`
(`agenda-bundle.js` lines 340-343): `if (lastViewType && lastViewType !==
info.view.type) lastViewStart = null; lastViewType = info.view.type;`. -/
def resetOnViewChange (st : NavState) (viewType : String) : NavState :=
  { lastViewStart :=
      match st.lastViewType with
      | some t => if t ≠ viewType then none else st.lastViewStart
      | none => st.lastViewStart
    lastViewType := some viewType
    isAutoNavigating := st.isAutoNavigating }

/-- Embeds the direction inference (`agenda-bundle.js` lines 356-357):
`lastViewStart && viewStart.toMillis() < lastViewStart.toMillis() ? -1 : 1`. -/
def inferDirection (lastViewStart : Option Int) (viewStart : Int) : Int :=
  match lastViewStart with
  | some l => if viewStart < l then -1 else 1
  | none => 1

/-- Embeds the `datesSet` handler of `renderAgenda` (`agenda-bundle.js` lines
332-371) as a pure transition: given the closed-over `eventRanges` and
`sortedRanges` lists and the current `NavState`, a view-change signal yields
the next `NavState` and the timestamp handed to `gotoDate` (`none` when no
jump is invoked).  DOM work (`updateTitle`) is outside the model. -/
def datesSet (eventRanges sortedRanges : List EventRange) (st : NavState)
    (info : ViewInfo) : NavState × Option Int :=
  if eventRanges.isEmpty then (st, none) else
  let st1 := resetOnViewChange st info.viewType
  if st1.isAutoNavigating then
    ({ st1 with isAutoNavigating := false, lastViewStart := some info.currentStart }, none)
  else if info.viewType = "listWeek" ∨ info.viewType = "listMonth" then
    let viewStart := info.currentStart
    let viewEnd := info.currentEnd
    if hasEventsInRange eventRanges viewStart viewEnd then
      ({ st1 with lastViewStart := some viewStart }, none)
    else
      let direction := inferDirection st1.lastViewStart viewStart
      let target :=
        if direction = -1 then findPrevEventDate sortedRanges viewStart
        else findNextEventDate sortedRanges viewEnd
      match target with
      | some t => ({ st1 with isAutoNavigating := true }, some t)
      | none => ({ st1 with lastViewStart := some viewStart }, none)
  else (st1, none)

/-- C3: `hasEventsInRange` is true iff some range strictly overlaps the
window (`range.start < windowEnd` and `range.end > windowStart`); a range
touching the window only at an endpoint changes nothing, and the result on
the empty list is `false`. -/
theorem C3_hasEventsInRange_strict_overlap (ranges : List EventRange)
    (windowStart windowEnd : Int) :
    (hasEventsInRange ranges windowStart windowEnd = true ↔
      ∃ r ∈ ranges, r.start < windowEnd ∧ r.stop > windowStart) ∧
    (∀ r rs, r.stop = windowStart ∨ r.start = windowEnd →
      hasEventsInRange (r :: rs) windowStart windowEnd =
        hasEventsInRange rs windowStart windowEnd) ∧
    hasEventsInRange [] windowStart windowEnd = false := by
  refine ⟨?_, ?_, rfl⟩
  · simp [hasEventsInRange, List.any_eq_true]
  · intro r rs h
    simp only [hasEventsInRange, List.any_cons, Bool.or_eq_true]
    rcases h with h | h <;>
      simp [h]

/-- Witness for C3 at a concrete touching range: a range ending exactly at
the window start does not change the answer. -/
theorem C3_witness :
    hasEventsInRange [⟨0, 5⟩] 5 10 = hasEventsInRange [] 5 10 :=
  (C3_hasEventsInRange_strict_overlap [] 5 10).2.1 ⟨0, 5⟩ [] (Or.inl rfl)

/-- Forward scan of `findNextEventDate` on a list sorted ascending by start:
characterizes both the `some` and the `none` answer. -/
theorem findNextEventDate_sorted (l : List EventRange)
    (hs : l.Pairwise (fun a b => a.start ≤ b.start)) (t : Int) :
    match findNextEventDate l t with
    | some s => t ≤ s ∧ (∃ r ∈ l, r.start = s) ∧ (∀ r ∈ l, t ≤ r.start → s ≤ r.start)
    | none => ∀ r ∈ l, r.start < t := by
  induction l with
  | nil => simp [findNextEventDate]
  | cons r rs ih =>
    rcases List.pairwise_cons.mp hs with ⟨hr, hrs⟩
    specialize ih hrs
    by_cases h : t ≤ r.start
    · have hif : findNextEventDate (r :: rs) t = some r.start := by
        simp [findNextEventDate, ge_iff_le, h]
      rw [hif]
      refine ⟨h, ⟨r, List.mem_cons_self r rs, rfl⟩, ?_⟩
      intro x hx _
      rcases List.mem_cons.mp hx with rfl | hx
      · exact le_refl _
      · exact hr x hx
    · have hif : findNextEventDate (r :: rs) t = findNextEventDate rs t := by
        simp [findNextEventDate, ge_iff_le, h]
      rw [hif]
      cases hnx : findNextEventDate rs t with
      | some s =>
        rw [hnx] at ih
        refine ⟨ih.1, ?_, ?_⟩
        · rcases ih.2.1 with ⟨x, hx, hxs⟩
          exact ⟨x, List.mem_cons_of_mem r hx, hxs⟩
        · intro x hx hxt
          rcases List.mem_cons.mp hx with rfl | hx
          · exact absurd hxt h
          · exact ih.2.2 x hx hxt
      | none =>
        rw [hnx] at ih
        intro x hx
        rcases List.mem_cons.mp hx with rfl | hx
        · exact lt_of_not_le h
        · exact ih x hx

/-- Forward scan of `findPrevAux` on a list sorted descending by start:
characterizes both the `some` and the `none` answer. -/
theorem findPrevAux_sorted (l : List EventRange)
    (hs : l.Pairwise (fun a b => b.start ≤ a.start)) (t : Int) :
    match findPrevAux l t with
    | some s => s < t ∧ (∃ r ∈ l, r.start = s) ∧ (∀ r ∈ l, r.start < t → r.start ≤ s)
    | none => ∀ r ∈ l, t ≤ r.start := by
  induction l with
  | nil => simp [findPrevAux]
  | cons r rs ih =>
    rcases List.pairwise_cons.mp hs with ⟨hr, hrs⟩
    specialize ih hrs
    by_cases h : r.start < t
    · have hif : findPrevAux (r :: rs) t = some r.start := by
        simp [findPrevAux, h]
      rw [hif]
      refine ⟨h, ⟨r, List.mem_cons_self r rs, rfl⟩, ?_⟩
      intro x hx _
      rcases List.mem_cons.mp hx with rfl | hx
      · exact le_refl _
      · exact hr x hx
    · have hif : findPrevAux (r :: rs) t = findPrevAux rs t := by
        simp [findPrevAux, h]
      rw [hif]
      cases hpx : findPrevAux rs t with
      | some s =>
        rw [hpx] at ih
        refine ⟨ih.1, ?_, ?_⟩
        · rcases ih.2.1 with ⟨x, hx, hxs⟩
          exact ⟨x, List.mem_cons_of_mem r hx, hxs⟩
        · intro x hx hxt
          rcases List.mem_cons.mp hx with rfl | hx
          · exact absurd hxt h
          · exact ih.2.2 x hx hxt
      | none =>
        rw [hpx] at ih
        intro x hx
        rcases List.mem_cons.mp hx with rfl | hx
        · exact le_of_not_lt h
        · exact ih x hx

/-- C1: on a list sorted ascending by start timestamp, `findNextEventDate`
returns the minimal range start `>= afterOrAt` and is `none` when no start
qualifies; `findPrevEventDate` returns the maximal range start `< before`
and is `none` when no start qualifies. -/
theorem C1_nearest_event_search (l : List EventRange)
    (hs : l.Pairwise (fun a b => a.start ≤ b.start)) (t : Int) :
    (match findNextEventDate l t with
     | some s => t ≤ s ∧ (∃ r ∈ l, r.start = s) ∧ (∀ r ∈ l, t ≤ r.start → s ≤ r.start)
     | none => ∀ r ∈ l, r.start < t) ∧
    (match findPrevEventDate l t with
     | some s => s < t ∧ (∃ r ∈ l, r.start = s) ∧ (∀ r ∈ l, r.start < t → r.start ≤ s)
     | none => ∀ r ∈ l, t ≤ r.start) := by
  refine ⟨findNextEventDate_sorted l hs t, ?_⟩
  have hrev : l.reverse.Pairwise (fun a b => b.start ≤ a.start) :=
    List.pairwise_reverse.mpr hs
  have haux := findPrevAux_sorted l.reverse hrev t
  rw [findPrevEventDate]
  cases hpx : findPrevAux l.reverse t with
  | some s =>
    rw [hpx] at haux
    refine ⟨haux.1, ?_, ?_⟩
    · rcases haux.2.1 with ⟨x, hx, hxs⟩
      exact ⟨x, List.mem_reverse.mp hx, hxs⟩
    · intro x hx hxt
      exact haux.2.2 x (List.mem_reverse.mpr hx) hxt
  | none =>
    rw [hpx] at haux
    intro x hx
    exact haux x (List.mem_reverse.mpr hx)

/-- Witness for C1 on a concrete sorted list: the next start at or after 7 is
10, and the previous start strictly before 7 is 5. -/
theorem C1_witness :
    7 ≤ (10 : Int) ∧ (∃ r ∈ [(⟨0, 1⟩ : EventRange), ⟨5, 6⟩, ⟨10, 11⟩], r.start = 10) := by
  have h := C1_nearest_event_search [⟨0, 1⟩, ⟨5, 6⟩, ⟨10, 11⟩] (by decide) 7
  have hn : findNextEventDate [(⟨0, 1⟩ : EventRange), ⟨5, 6⟩, ⟨10, 11⟩] 7 = some 10 := by
    decide
  rw [hn] at h
  exact ⟨h.1.1, h.1.2.1⟩

/-- Derived ranges always have a strictly later end than start, whatever the
raw event and the parse results. -/
theorem lt_derivedStop (parse : String → Option Int) (e : RawEvent) (start : Int) :
    start < derivedStop parse e start := by
  unfold derivedStop
  cases e.allDay <;> cases h : e.stop <;>
    simp only [Bool.false_eq_true, if_true, if_false, msPerDay, msPerMinute] <;>
    split <;> try split
  all_goals omega

/-- C6: a valid raw event whose defaulted end is at or before its start is
expanded to a range of exactly one day (all-day) or one minute (timed). -/
theorem C6_degenerate_range_expansion (parse : String → Option Int) (e : RawEvent)
    (s : String) (start : Int) (hstart : e.start = some s) (hp : parse s = some start)
    (hend : defaultedEnd parse e start ≤ start) :
    buildEventRange parse (some e) =
      some ⟨start, start + (if e.allDay then msPerDay else msPerMinute)⟩ := by
  simp only [buildEventRange, hstart, hp, derivedStop]
  cases had : e.allDay <;> simp [had, hend]

/-- Witness for C6 at a concrete all-day event with a missing end field. -/
theorem C6_witness :
    buildEventRange (fun _ => some 100) (some ⟨some "a", none, true⟩) =
      some ⟨100, 100 + msPerDay⟩ := by
  have h := C6_degenerate_range_expansion (fun _ => some 100) ⟨some "a", none, true⟩
    "a" 100 rfl rfl (by decide)
  simpa using h

/-- C7: an all-day event whose parsed end is strictly after its start and
whose original end field is a 10-character (date-only) string gets its end
extended by one day. -/
theorem C7_date_only_end_inclusive (parse : String → Option Int) (e : RawEvent)
    (s es : String) (start endMs : Int) (hstart : e.start = some s)
    (hp : parse s = some start) (had : e.allDay = true) (hes : e.stop = some es)
    (hpe : parse es = some endMs) (hlen : es.length = 10) (hgt : start < endMs) :
    buildEventRange parse (some e) = some ⟨start, endMs + msPerDay⟩ := by
  have hde : defaultedEnd parse e start = endMs := by
    simp [defaultedEnd, hes, hpe]
  simp [buildEventRange, hstart, hp, derivedStop, hde, had, hes, hlen, not_le.mpr hgt]

/-- Witness for C7: the single-day all-day event of the spec scenario,
`{start: "2025-12-01", end: "2025-12-01", allDay: true}` parsed at epoch
offset 0, yields the range `[0, 0 + 1 day)` extended... the end field parses
to the same instant plus nothing; here a distinct two-day event
`end = "2025-12-02"` strictly after start is extended by one day. -/
theorem C7_witness :
    buildEventRange (fun x => if x = "2025-12-02" then some 86400000 else some 0)
      (some ⟨some "2025-12-01", some "2025-12-02", true⟩) =
      some ⟨0, 86400000 + msPerDay⟩ := by
  exact C7_date_only_end_inclusive (fun x => if x = "2025-12-02" then some 86400000 else some 0)
    ⟨some "2025-12-01", some "2025-12-02", true⟩ "2025-12-01" "2025-12-02" 0 86400000
    rfl (by decide) rfl rfl (by decide) (by decide) (by decide)

/-- Expresses validity of a raw event as consumed by `buildEventRanges`: the
array entry is truthy, its `start` field is present, and it parses. -/
def validEvent (parse : String → Option Int) (ev : Option RawEvent) : Prop :=
  ∃ e s t, ev = some e ∧ e.start = some s ∧ parse s = some t

/-- C8: `buildEventRanges` is total (fail-soft): a non-array argument yields
`[]`; an entry contributes a range exactly when it is a valid event; output
is the concatenation of the per-entry contributions in input order; and every
produced range satisfies `end > start`. -/
theorem C8_fail_soft_order_invariant (parse : String → Option Int) :
    buildEventRanges parse none = [] ∧
    (∀ ev, (buildEventRange parse ev).isSome = true ↔ validEvent parse ev) ∧
    (∀ ev evs, buildEventRanges parse (some (ev :: evs)) =
      (buildEventRange parse ev).toList ++ buildEventRanges parse (some evs)) ∧
    (∀ evs r, r ∈ buildEventRanges parse (some evs) → r.start < r.stop) := by
  refine ⟨rfl, ?_, ?_, ?_⟩
  · intro ev
    cases ev with
    | none => simp [buildEventRange, validEvent]
    | some e =>
      cases hs : e.start with
      | none => simp [buildEventRange, hs, validEvent]
      | some s =>
        cases hp : parse s with
        | none => simp [buildEventRange, hs, hp, validEvent]
        | some t =>
          simp only [buildEventRange, hs, hp, Option.isSome_some, true_iff]
          exact ⟨e, s, t, rfl, hs, hp⟩
  · intro ev evs
    cases h : buildEventRange parse ev <;>
      simp [buildEventRanges, List.filterMap_cons, h]
  · intro evs r hr
    rcases List.mem_filterMap.mp hr with ⟨ev, _, hev⟩
    rcases ev with _ | e
    · simp [buildEventRange] at hev
    · rcases hs : e.start with _ | s
      · simp [buildEventRange, hs] at hev
      · rcases hp : parse s with _ | t
        · simp [buildEventRange, hs, hp] at hev
        · simp only [buildEventRange, hs, hp, Option.some.injEq] at hev
          rw [← hev]
          exact lt_derivedStop parse e t

/-- Witness for C8: a concrete timed degenerate event produces a range with
a strictly positive width. -/
theorem C8_witness :
    (⟨0, 60000⟩ : EventRange).start < (⟨0, 60000⟩ : EventRange).stop := by
  exact (C8_fail_soft_order_invariant (fun _ => some 0)).2.2.2
    [some ⟨some "a", none, false⟩] ⟨0, 60000⟩ (by decide)

/-- Characterizes the `boundsStep` fold: the accumulated start is the minimum
of the seed start and all scanned starts (bounded below and attained), and the
accumulated end is the corresponding maximum. -/
theorem boundsStep_foldl_spec (l : List EventRange) (init : Bounds) :
    ((l.foldl boundsStep init).start ≤ init.start ∧
      ∀ r ∈ l, (l.foldl boundsStep init).start ≤ r.start) ∧
    ((l.foldl boundsStep init).start = init.start ∨
      ∃ r ∈ l, (l.foldl boundsStep init).start = r.start) ∧
    (init.stop ≤ (l.foldl boundsStep init).stop ∧
      ∀ r ∈ l, r.stop ≤ (l.foldl boundsStep init).stop) ∧
    ((l.foldl boundsStep init).stop = init.stop ∨
      ∃ r ∈ l, (l.foldl boundsStep init).stop = r.stop) := by
  induction l generalizing init with
  | nil => simp
  | cons r rs ih =>
    simp only [List.foldl_cons]
    have h := ih (boundsStep init r)
    have hstart : (boundsStep init r).start ≤ init.start ∧
        (boundsStep init r).start ≤ r.start ∧
        ((boundsStep init r).start = init.start ∨ (boundsStep init r).start = r.start) := by
      simp only [boundsStep]
      split <;> (simp_all; try omega)
    have hstop : init.stop ≤ (boundsStep init r).stop ∧
        r.stop ≤ (boundsStep init r).stop ∧
        ((boundsStep init r).stop = init.stop ∨ (boundsStep init r).stop = r.stop) := by
      simp only [boundsStep]
      split <;> (simp_all; try omega)
    refine ⟨⟨le_trans h.1.1 hstart.1, ?_⟩, ?_, ⟨le_trans hstop.1 h.2.2.1.1, ?_⟩, ?_⟩
    · intro x hx
      rcases List.mem_cons.mp hx with rfl | hx
      · exact le_trans h.1.1 hstart.2.1
      · exact h.1.2 x hx
    · rcases h.2.1 with he | ⟨x, hx, he⟩
      · rcases hstart.2.2 with h0 | h0
        · exact Or.inl (he.trans h0)
        · exact Or.inr ⟨r, List.mem_cons_self r rs, he.trans h0⟩
      · exact Or.inr ⟨x, List.mem_cons_of_mem r hx, he⟩
    · intro x hx
      rcases List.mem_cons.mp hx with rfl | hx
      · exact le_trans hstop.2.1 h.2.2.1.1
      · exact h.2.2.1.2 x hx
    · rcases h.2.2.2 with he | ⟨x, hx, he⟩
      · rcases hstop.2.2 with h0 | h0
        · exact Or.inl (he.trans h0)
        · exact Or.inr ⟨r, List.mem_cons_self r rs, he.trans h0⟩
      · exact Or.inr ⟨x, List.mem_cons_of_mem r hx, he⟩

/-- Characterization of `getEventBounds` on a nonempty list: the result is
the attained minimum start and attained maximum end. -/
theorem getEventBounds_nonempty (l : List EventRange) (h : l ≠ []) :
    ∃ b, getEventBounds (some l) = some b ∧
      (∀ r ∈ l, b.start ≤ r.start ∧ r.stop ≤ b.stop) ∧
      (∃ r ∈ l, b.start = r.start) ∧ (∃ r ∈ l, b.stop = r.stop) := by
  cases l with
  | nil => exact absurd rfl h
  | cons r rs =>
    have hf := boundsStep_foldl_spec (r :: rs) { start := r.start, stop := r.stop }
    refine ⟨(r :: rs).foldl boundsStep { start := r.start, stop := r.stop }, rfl, ?_, ?_, ?_⟩
    · intro x hx
      exact ⟨hf.1.2 x hx, hf.2.2.1.2 x hx⟩
    · rcases hf.2.1 with he | he
      · exact ⟨r, List.mem_cons_self r rs, he⟩
      · exact he
    · rcases hf.2.2.2 with he | he
      · exact ⟨r, List.mem_cons_self r rs, he⟩
      · exact he

/-- C9: `getEventBounds` is `none` on an absent or empty list; on a nonempty
list it returns the attained minimum start and attained maximum end (hence
`bounds.start <= every range.start` and `bounds.end >= every range.end`);
and the result is invariant under permutation of the input. -/
theorem C9_bounds_min_max (l : List EventRange) :
    getEventBounds none = none ∧
    getEventBounds (some []) = none ∧
    (l ≠ [] → ∃ b, getEventBounds (some l) = some b ∧
      (∀ r ∈ l, b.start ≤ r.start ∧ r.stop ≤ b.stop) ∧
      (∃ r ∈ l, b.start = r.start) ∧ (∃ r ∈ l, b.stop = r.stop)) ∧
    (∀ l', l.Perm l' → getEventBounds (some l) = getEventBounds (some l')) := by
  refine ⟨rfl, rfl, getEventBounds_nonempty l, ?_⟩
  intro l' hp
  cases hl : l with
  | nil =>
    subst hl
    rw [hp.nil_eq]
  | cons r rs =>
    subst hl
    have hne : (r :: rs) ≠ ([] : List EventRange) := by simp
    have hne' : l' ≠ [] := by
      intro h0
      subst h0
      exact hne hp.eq_nil
    rcases getEventBounds_nonempty (r :: rs) hne with ⟨b, hb, hble, hbs, hbe⟩
    rcases getEventBounds_nonempty l' hne' with ⟨b', hb', hble', hbs', hbe'⟩
    have hmem : ∀ x, x ∈ (r :: rs) ↔ x ∈ l' := fun x => hp.mem_iff
    have hbb' : b = b' := by
      rcases hbs with ⟨x, hx, hxs⟩
      rcases hbs' with ⟨x', hx', hxs'⟩
      rcases hbe with ⟨y, hy, hys⟩
      rcases hbe' with ⟨y', hy', hys'⟩
      have h1 : b.start ≤ b'.start := by
        rw [hxs']
        exact (hble x' ((hmem x').mpr hx')).1
      have h2 : b'.start ≤ b.start := by
        rw [hxs]
        exact (hble' x ((hmem x).mp hx)).1
      have h3 : b.stop ≤ b'.stop := by
        rw [hys]
        exact (hble' y ((hmem y).mp hy)).2
      have h4 : b'.stop ≤ b.stop := by
        rw [hys']
        exact (hble y' ((hmem y').mpr hy')).2
      obtain ⟨bs, be⟩ := b
      obtain ⟨bs', be'⟩ := b'
      simp only at h1 h2 h3 h4
      simp only [Bounds.mk.injEq]
      omega
    rw [hb, hb', hbb']

/-- Witness for C9 on a concrete two-element list: bounds exist and dominate
both ranges. -/
theorem C9_witness :
    ∃ b, getEventBounds (some [⟨5, 6⟩, ⟨0, 9⟩]) = some b ∧
      (∀ r ∈ [(⟨5, 6⟩ : EventRange), ⟨0, 9⟩], b.start ≤ r.start ∧ r.stop ≤ b.stop) ∧
      (∃ r ∈ [(⟨5, 6⟩ : EventRange), ⟨0, 9⟩], b.start = r.start) ∧
      (∃ r ∈ [(⟨5, 6⟩ : EventRange), ⟨0, 9⟩], b.stop = r.stop) :=
  (C9_bounds_min_max [⟨5, 6⟩, ⟨0, 9⟩]).2.2.1 (by decide)

/-- C10: when the built event-range list is empty the handler returns before
any navigation-state tracking: for every signal the state is unchanged
(including `lastViewType`) and no jump is invoked, whatever `sortedRanges`
holds. -/
theorem C10_empty_ranges_disable_tracking (sortedRanges : List EventRange)
    (st : NavState) (info : ViewInfo) :
    datesSet [] sortedRanges st info = (st, none) := rfl

/-- C2: a signal processed while `isAutoNavigating` is set (with a nonempty
range list, the only way the flag can have been set) clears the flag, records
the new window start, and does nothing else: no jump is invoked and the
result does not depend on the window's contents. -/
theorem C2_autonav_signal_consumed (eventRanges sortedRanges : List EventRange)
    (st : NavState) (info : ViewInfo) (hne : eventRanges ≠ [])
    (hauto : st.isAutoNavigating = true) :
    datesSet eventRanges sortedRanges st info =
      ({ lastViewStart := some info.currentStart, lastViewType := some info.viewType,
         isAutoNavigating := false }, none) := by
  have hni : eventRanges.isEmpty = false := by
    cases eventRanges
    · exact absurd rfl hne
    · rfl
  simp [datesSet, hni, hauto, resetOnViewChange]

/-- Witness for C2 at a concrete auto-navigating state. -/
theorem C2_witness :
    datesSet [⟨0, 1⟩] [] ⟨none, none, true⟩ ⟨"listWeek", 5, 10⟩ =
      (⟨some 5, some "listWeek", false⟩, none) :=
  C2_autonav_signal_consumed [⟨0, 1⟩] [] ⟨none, none, true⟩ ⟨"listWeek", 5, 10⟩
    (by decide) rfl

/-- Characterizes the Idle-and-empty-window path of `datesSet`: direction is
inferred from the post-reset `lastViewStart`, the corresponding search runs,
and the outcome either starts an auto-navigation jump or falls through to
recording the window start. -/
theorem datesSet_idle_empty (eventRanges sortedRanges : List EventRange) (st : NavState)
    (info : ViewInfo) (hne : eventRanges ≠ []) (hidle : st.isAutoNavigating = false)
    (htracked : info.viewType = "listWeek" ∨ info.viewType = "listMonth")
    (hempty : hasEventsInRange eventRanges info.currentStart info.currentEnd = false) :
    datesSet eventRanges sortedRanges st info =
      match (if inferDirection (resetOnViewChange st info.viewType).lastViewStart
                info.currentStart = -1
             then findPrevEventDate sortedRanges info.currentStart
             else findNextEventDate sortedRanges info.currentEnd) with
      | some t => ({ resetOnViewChange st info.viewType with isAutoNavigating := true }, some t)
      | none => ({ resetOnViewChange st info.viewType with
                   lastViewStart := some info.currentStart }, none) := by
  have hni : eventRanges.isEmpty = false := by
    cases eventRanges
    · exact absurd rfl hne
    · rfl
  have h1 : (resetOnViewChange st info.viewType).isAutoNavigating = false := hidle
  have ht : (info.viewType = "listWeek" ∨ info.viewType = "listMonth") = True :=
    eq_true htracked
  simp only [datesSet, hni, Bool.false_eq_true, if_false, h1, ht, if_true, hempty]

/-- C5: in an Idle state on a tracked empty window the direction is backward
exactly when a (post view-kind reset) `lastViewStart` exists and the new
window start strictly precedes it, and forward otherwise; backward runs
`findPrevEventDate(sorted, windowStart)`, forward runs
`findNextEventDate(sorted, windowEnd)`, and the handler jumps or records
accordingly. -/
theorem C5_direction_inference (eventRanges sortedRanges : List EventRange) (st : NavState)
    (info : ViewInfo) (hne : eventRanges ≠ []) (hidle : st.isAutoNavigating = false)
    (htracked : info.viewType = "listWeek" ∨ info.viewType = "listMonth")
    (hempty : hasEventsInRange eventRanges info.currentStart info.currentEnd = false) :
    (inferDirection (resetOnViewChange st info.viewType).lastViewStart info.currentStart
        = -1 ↔
      ∃ l, (resetOnViewChange st info.viewType).lastViewStart = some l ∧
        info.currentStart < l) ∧
    (inferDirection (resetOnViewChange st info.viewType).lastViewStart info.currentStart
        = -1 ∨
      inferDirection (resetOnViewChange st info.viewType).lastViewStart info.currentStart
        = 1) ∧
    datesSet eventRanges sortedRanges st info =
      match (if inferDirection (resetOnViewChange st info.viewType).lastViewStart
                info.currentStart = -1
             then findPrevEventDate sortedRanges info.currentStart
             else findNextEventDate sortedRanges info.currentEnd) with
      | some t => ({ resetOnViewChange st info.viewType with isAutoNavigating := true }, some t)
      | none => ({ resetOnViewChange st info.viewType with
                   lastViewStart := some info.currentStart }, none) := by
  refine ⟨?_, ?_,
    datesSet_idle_empty eventRanges sortedRanges st info hne hidle htracked hempty⟩
  · cases hl : (resetOnViewChange st info.viewType).lastViewStart with
    | none => simp [inferDirection]
    | some l =>
      by_cases h : info.currentStart < l <;> simp [inferDirection, h]
  · cases hl : (resetOnViewChange st info.viewType).lastViewStart with
    | none => simp [inferDirection]
    | some l =>
      by_cases h : info.currentStart < l <;> simp [inferDirection, h]

/-- Witness for C5 going backward: the prior window start 20 exceeds the new
start 5, so the previous event start 0 is the jump target and the flag is
set. -/
theorem C5_witness :
    datesSet [⟨0, 1⟩] [⟨0, 1⟩] ⟨some 20, some "listWeek", false⟩ ⟨"listWeek", 5, 10⟩ =
      (⟨some 20, some "listWeek", true⟩, some 0) := by
  have h := (C5_direction_inference [⟨0, 1⟩] [⟨0, 1⟩] ⟨some 20, some "listWeek", false⟩
    ⟨"listWeek", 5, 10⟩ (by decide) rfl (Or.inl rfl) (by decide)).2.2
  rw [h]
  rfl

/-- Counterexample to C4 as stated: at a concrete Idle signal on a tracked
empty window whose forward search finds no target, `lastViewStart` is NOT
left unchanged — the handler falls through and records the new window start
(`null` becomes `5`). -/
theorem C4_counterexample :
    ((⟨none, some "listWeek", false⟩ : NavState).isAutoNavigating = false ∧
      hasEventsInRange [⟨0, 1⟩] 5 10 = false ∧
      findNextEventDate [⟨0, 1⟩] 10 = none) ∧
    (datesSet [⟨0, 1⟩] [⟨0, 1⟩] ⟨none, some "listWeek", false⟩
        ⟨"listWeek", 5, 10⟩).1.lastViewStart ≠
      (⟨none, some "listWeek", false⟩ : NavState).lastViewStart := by
  decide

/-- C4 amended: when an Idle signal on a tracked empty window finds no target
in the inferred direction, the handler stays Idle (`isAutoNavigating` remains
false) and invokes no jump, but it records `lastViewStart` as the new
window's start (it is not left unchanged). -/
theorem C4_no_target_stays_idle (eventRanges sortedRanges : List EventRange)
    (st : NavState) (info : ViewInfo) (hne : eventRanges ≠ [])
    (hidle : st.isAutoNavigating = false)
    (htracked : info.viewType = "listWeek" ∨ info.viewType = "listMonth")
    (hempty : hasEventsInRange eventRanges info.currentStart info.currentEnd = false)
    (hnotarget : (if inferDirection (resetOnViewChange st info.viewType).lastViewStart
                     info.currentStart = -1
                  then findPrevEventDate sortedRanges info.currentStart
                  else findNextEventDate sortedRanges info.currentEnd) = none) :
    datesSet eventRanges sortedRanges st info =
      ({ lastViewStart := some info.currentStart, lastViewType := some info.viewType,
         isAutoNavigating := false }, none) := by
  rw [datesSet_idle_empty eventRanges sortedRanges st info hne hidle htracked hempty,
    hnotarget]
  simp [resetOnViewChange, hidle]

/-- Witness for the amended C4: pastward of nothing — a forward search past
the last event records the new window start and stays Idle. -/
theorem C4_witness :
    datesSet [⟨0, 2⟩] [⟨0, 2⟩] ⟨some 3, some "listMonth", false⟩ ⟨"listMonth", 5, 10⟩ =
      (⟨some 5, some "listMonth", false⟩, none) := by
  exact C4_no_target_stays_idle [⟨0, 2⟩] [⟨0, 2⟩] ⟨some 3, some "listMonth", false⟩
    ⟨"listMonth", 5, 10⟩ (by decide) rfl (Or.inr rfl) (by decide) (by decide)
